import Mathlib

/-!
# rules_swift_previews, example `c_objc_interop/CHelpers`

A shallow embedding of the C helper layer (`CryptoHelpers.c`, `UserInfo.c`,
`TimingHelpers.c`, `CompressionHelpers.c`) together with theorems about it.

Conventions of the embedding

* `size_t`, `uint64_t` and `uLong` are 64 bit wide (the helpers target Darwin,
  an LP64 platform); they are natural numbers reduced modulo `2 ^ 64` at
  every operation that can wrap.
* `uint8_t` is `Fin 256`, a C `char` is a `Char`.
* A caller supplied output buffer is a `CharBuf`: its contents by offset, the
  set of offsets stored to, and the number of byte stores performed.
* A C string is the list of its characters up to (not including) the first
  NUL; the end of the list also terminates it.
-/

namespace CHelpers

/-! ## Machine integers -/

/-- Modulus of `size_t`, `uint64_t` and `uLong`. -/
def SIZE_MOD : Nat := 2 ^ 64

/-- Modulus of `uint32_t` (`CC_LONG`, the fields of `mach_timebase_info_data_t`). -/
def U32_MOD : Nat := 2 ^ 32

/-- Unsigned 64 bit subtraction `a - b`. -/
def sub64 (a b : Nat) : Nat := (a + SIZE_MOD - b % SIZE_MOD) % SIZE_MOD

/-- A `uint8_t`. -/
abbrev Byte := Fin 256

/-- The terminator of a C string. -/
def NUL : Char := Char.ofNat 0

/-! ## Output buffers -/

/-- A caller supplied `char *` output buffer, addressed by offset. -/
structure CharBuf where
  /-- Contents by offset. -/
  mem : Nat → Char
  /-- Offsets that have been stored to. -/
  written : Nat → Bool
  /-- Number of byte stores performed. -/
  count : Nat

/-- A buffer with the given initial contents that nothing has stored to yet. -/
def CharBuf.fresh (init : Nat → Char) : CharBuf :=
  { mem := init, written := fun _ => false, count := 0 }

/-- The store `buffer[i] = c`. -/
def CharBuf.store (b : CharBuf) (i : Nat) (c : Char) : CharBuf :=
  { mem := fun j => if j = i then c else b.mem j
    written := fun j => decide (j = i) || b.written j
    count := b.count + 1 }

/-- The first `n` cells of the buffer. -/
def CharBuf.contents (b : CharBuf) (n : Nat) : List Char :=
  (List.range n).map b.mem

/-! ## CryptoHelpers.c -/

/-- The table `static const char hex_chars[] = "0123456789abcdef"` (with its
terminator). -/
def hex_chars : List Char :=
  "0123456789abcdef".toList ++ [NUL]

/-- The `for` loop of `crypto_digest_to_hex`, started at index `i`; `fuel`
bounds the number of iterations. -/
def crypto_digest_to_hex_loop (digest : List Byte) (digest_length : Nat) :
    Nat → Nat → CharBuf → CharBuf
  | 0, _, hex_output => hex_output
  | fuel + 1, i, hex_output =>
    if i < digest_length then
      let b : Nat := (digest.getD i 0).val
      let out1 := hex_output.store (i * 2 % SIZE_MOD) (hex_chars.getD ((b >>> 4) &&& 0x0F) NUL)
      let out2 := out1.store ((i * 2 % SIZE_MOD + 1) % SIZE_MOD) (hex_chars.getD (b &&& 0x0F) NUL)
      crypto_digest_to_hex_loop digest digest_length fuel ((i + 1) % SIZE_MOD) out2
    else hex_output

/-- `void crypto_digest_to_hex(const uint8_t *digest, size_t digest_length, char *hex_output)`. -/
def crypto_digest_to_hex (digest : List Byte) (digest_length : Nat) (hex_output : CharBuf) :
    CharBuf :=
  (crypto_digest_to_hex_loop digest digest_length digest_length 0 hex_output).store
    (digest_length * 2 % SIZE_MOD) NUL

/-- The lowercase hexadecimal alphabet, digit `k` at position `k`. -/
def lowerHexAlphabet : List Char :=
  "0123456789abcdef".toList

/-- The value of a lowercase hexadecimal digit. -/
def hexValue (c : Char) : Nat :=
  lowerHexAlphabet.indexOf c

/-- The character `crypto_digest_to_hex` is expected to leave at offset `j` of the hex
text of `digest`: the digit of the high nibble of byte `j / 2` at even `j`, of its low
nibble at odd `j`. -/
def hexTextAt (digest : List Byte) (j : Nat) : Char :=
  if j % 2 = 0 then lowerHexAlphabet.getD ((digest.getD (j / 2) 0).val / 16) NUL
  else lowerHexAlphabet.getD ((digest.getD (j / 2) 0).val % 16) NUL

/-! ## CommonCrypto

`CC_SHA256` and `CC_MD5` belong to the system library; they are modelled by the
algorithms they implement (FIPS 180-4 and RFC 1321), on 32 bit words held as natural
numbers. -/

namespace SHA256

/-- Rotate a 32 bit word right by `n`. -/
def rotr (x n : Nat) : Nat := ((x >>> n) ||| (x <<< (32 - n))) % 2 ^ 32
/-- The function `Ch` of FIPS 180-4, section 4.1.2. -/
def Ch (x y z : Nat) : Nat := (x &&& y) ^^^ ((2 ^ 32 - 1 - x) &&& z)
/-- The function `Maj` of FIPS 180-4, section 4.1.2. -/
def Maj (x y z : Nat) : Nat := (x &&& y) ^^^ (x &&& z) ^^^ (y &&& z)
/-- The function written with a capital sigma, index 0. -/
def bigSigma0 (x : Nat) : Nat := rotr x 2 ^^^ rotr x 13 ^^^ rotr x 22
/-- The function written with a capital sigma, index 1. -/
def bigSigma1 (x : Nat) : Nat := rotr x 6 ^^^ rotr x 11 ^^^ rotr x 25
/-- The function written with a small sigma, index 0. -/
def smallSigma0 (x : Nat) : Nat := rotr x 7 ^^^ rotr x 18 ^^^ (x >>> 3)
/-- The function written with a small sigma, index 1. -/
def smallSigma1 (x : Nat) : Nat := rotr x 17 ^^^ rotr x 19 ^^^ (x >>> 10)

/-- Primality by trial division. -/
def isPrime (n : Nat) : Bool :=
  2 ≤ n && (List.range n).all fun d => d < 2 || n % d != 0

/-- The first 64 primes, 2 to 311. -/
def primes : List Nat :=
  (List.range 312).filter isPrime

/-- The largest `r` below `2 ^ bits` with `r ^ e <= x` on top of `acc`, decided bit by
bit from the most significant one. -/
def iroot (e x : Nat) : Nat → Nat → Nat
  | 0, acc => acc
  | bits + 1, acc =>
    if (acc + 2 ^ bits) ^ e ≤ x then iroot e x bits (acc + 2 ^ bits) else iroot e x bits acc

/-- The round constants: the first 32 bits of the fractional parts of the cube roots of
the first 64 primes (FIPS 180-4, section 4.2.2). -/
def K : List Nat :=
  primes.map fun p => iroot 3 (p * 2 ^ 96) 40 0 % 2 ^ 32

/-- The initial hash value: the first 32 bits of the fractional parts of the square roots
of the first 8 primes (FIPS 180-4, section 5.3.3). -/
def H0 : List Nat :=
  (primes.take 8).map fun p => iroot 2 (p * 2 ^ 64) 40 0 % 2 ^ 32

/-- The padded message: the bytes, `0x80`, zeros, and the bit length as 64 bit big endian. -/
def pad (msg : List Byte) : List Nat :=
  msg.map Fin.val ++ [0x80] ++ List.replicate ((64 - (msg.length + 9) % 64) % 64) 0
    ++ (List.range 8).map fun i => (8 * msg.length) >>> (8 * (7 - i)) % 256

/-- The first `n` big endian 32 bit words of a byte list. -/
def words : Nat → List Nat → List Nat
  | 0, _ => []
  | n + 1, bs =>
    (bs.getD 0 0 * 2 ^ 24 + bs.getD 1 0 * 2 ^ 16 + bs.getD 2 0 * 2 ^ 8 + bs.getD 3 0)
      :: words n (bs.drop 4)

/-- Extends the message schedule (kept most recent word first) by `n` words. -/
def schedule : Nat → List Nat → List Nat
  | 0, w => w
  | n + 1, w =>
    schedule n
      ((smallSigma1 (w.getD 1 0) + w.getD 6 0 + smallSigma0 (w.getD 14 0) + w.getD 15 0) % 2 ^ 32
        :: w)

/-- One round of the compression function on the working variables `a` to `h`. -/
def round (st : List Nat) (kw : Nat × Nat) : List Nat :=
  match st with
  | [a, b, c, d, e, f, g, h] =>
    let t1 := (h + bigSigma1 e + Ch e f g + kw.1 + kw.2) % 2 ^ 32
    let t2 := (bigSigma0 a + Maj a b c) % 2 ^ 32
    [(t1 + t2) % 2 ^ 32, a, b, c, (d + t1) % 2 ^ 32, e, f, g]
  | _ => st

/-- The compression function applied to one 64 byte block. -/
def compress (st : List Nat) (block : List Nat) : List Nat :=
  let w := (schedule 48 (words 16 block).reverse).reverse
  List.zipWith (fun x y => (x + y) % 2 ^ 32) st ((K.zip w).foldl round st)

/-- Compresses `n` consecutive 64 byte blocks. -/
def blocks : Nat → List Nat → List Nat → List Nat
  | 0, _, st => st
  | n + 1, bs, st => blocks n (bs.drop 64) (compress st (bs.take 64))

/-- The four bytes of a word, most significant first. -/
def wordBytes (w : Nat) : List Byte :=
  [Fin.ofNat (w >>> 24), Fin.ofNat (w >>> 16), Fin.ofNat (w >>> 8), Fin.ofNat w]

/-- The 32 byte SHA-256 digest of a message. -/
def digest (msg : List Byte) : List Byte :=
  ((blocks ((pad msg).length / 64) (pad msg) H0).map wordBytes).flatten

end SHA256

namespace MD5

/-- Rotate a 32 bit word left by `n`. -/
def rotl (x n : Nat) : Nat := ((x <<< n) ||| (x >>> (32 - n))) % 2 ^ 32
/-- Bitwise complement of a 32 bit word. -/
def not32 (x : Nat) : Nat := 2 ^ 32 - 1 - x

/-- The sine table of RFC 1321. -/
def T : List Nat :=
  [0xd76aa478, 0xe8c7b756, 0x242070db, 0xc1bdceee, 0xf57c0faf, 0x4787c62a, 0xa8304613, 0xfd469501,
   0x698098d8, 0x8b44f7af, 0xffff5bb1, 0x895cd7be, 0x6b901122, 0xfd987193, 0xa679438e, 0x49b40821,
   0xf61e2562, 0xc040b340, 0x265e5a51, 0xe9b6c7aa, 0xd62f105d, 0x02441453, 0xd8a1e681, 0xe7d3fbc8,
   0x21e1cde6, 0xc33707d6, 0xf4d50d87, 0x455a14ed, 0xa9e3e905, 0xfcefa3f8, 0x676f02d9, 0x8d2a4c8a,
   0xfffa3942, 0x8771f681, 0x6d9d6122, 0xfde5380c, 0xa4beea44, 0x4bdecfa9, 0xf6bb4b60, 0xbebfbc70,
   0x289b7ec6, 0xeaa127fa, 0xd4ef3085, 0x04881d05, 0xd9d4d039, 0xe6db99e5, 0x1fa27cf8, 0xc4ac5665,
   0xf4292244, 0x432aff97, 0xab9423a7, 0xfc93a039, 0x655b59c3, 0x8f0ccc92, 0xffeff47d, 0x85845dd1,
   0x6fa87e4f, 0xfe2ce6e0, 0xa3014314, 0x4e0811a1, 0xf7537e82, 0xbd3af235, 0x2ad7d2bb, 0xeb86d391]

/-- The per round shift amounts. -/
def S : List Nat :=
  [7, 12, 17, 22, 7, 12, 17, 22, 7, 12, 17, 22, 7, 12, 17, 22,
   5, 9, 14, 20, 5, 9, 14, 20, 5, 9, 14, 20, 5, 9, 14, 20,
   4, 11, 16, 23, 4, 11, 16, 23, 4, 11, 16, 23, 4, 11, 16, 23,
   6, 10, 15, 21, 6, 10, 15, 21, 6, 10, 15, 21, 6, 10, 15, 21]

/-- The initial chaining value. -/
def A0 : List Nat := [0x67452301, 0xefcdab89, 0x98badcfe, 0x10325476]

/-- The padded message: the bytes, `0x80`, zeros, and the bit length as 64 bit little endian. -/
def pad (msg : List Byte) : List Nat :=
  msg.map Fin.val ++ [0x80] ++ List.replicate ((64 - (msg.length + 9) % 64) % 64) 0
    ++ (List.range 8).map fun i => (8 * msg.length) >>> (8 * i) % 256

/-- The first `n` little endian 32 bit words of a byte list. -/
def words : Nat → List Nat → List Nat
  | 0, _ => []
  | n + 1, bs =>
    (bs.getD 0 0 + bs.getD 1 0 * 2 ^ 8 + bs.getD 2 0 * 2 ^ 16 + bs.getD 3 0 * 2 ^ 24)
      :: words n (bs.drop 4)

/-- Operation `i` of the 64 operations on the chaining variables `a` to `d`. -/
def step (m : List Nat) (st : List Nat) (i : Nat) : List Nat :=
  match st with
  | [a, b, c, d] =>
    let f :=
      if i < 16 then (b &&& c) ||| (not32 b &&& d)
      else if i < 32 then (d &&& b) ||| (not32 d &&& c)
      else if i < 48 then b ^^^ c ^^^ d
      else c ^^^ (b ||| not32 d)
    let g :=
      if i < 16 then i
      else if i < 32 then (5 * i + 1) % 16
      else if i < 48 then (3 * i + 5) % 16
      else 7 * i % 16
    let x := (f + a + T.getD i 0 + m.getD g 0) % 2 ^ 32
    [d, (b + rotl x (S.getD i 0)) % 2 ^ 32, b, c]
  | _ => st

/-- The compression function applied to one 64 byte block. -/
def compress (st : List Nat) (block : List Nat) : List Nat :=
  List.zipWith (fun x y => (x + y) % 2 ^ 32) st ((List.range 64).foldl (step (words 16 block)) st)

/-- Compresses `n` consecutive 64 byte blocks. -/
def blocks : Nat → List Nat → List Nat → List Nat
  | 0, _, st => st
  | n + 1, bs, st => blocks n (bs.drop 64) (compress st (bs.take 64))

/-- The four bytes of a word, least significant first. -/
def wordBytes (w : Nat) : List Byte :=
  [Fin.ofNat w, Fin.ofNat (w >>> 8), Fin.ofNat (w >>> 16), Fin.ofNat (w >>> 24)]

/-- The 16 byte MD5 digest of a message. -/
def digest (msg : List Byte) : List Byte :=
  ((blocks ((pad msg).length / 64) (pad msg) A0).map wordBytes).flatten

end MD5

/-- The CommonCrypto routine `CC_SHA256(data, len, md)`: the bytes stored to `md`, as a
function of the bytes `data` points to and of the `CC_LONG` argument `len`. -/
def CC_SHA256 (data : List Byte) (len : Nat) : List Byte :=
  SHA256.digest (data.take len)

/-- The CommonCrypto routine `CC_MD5(data, len, md)`. -/
def CC_MD5 (data : List Byte) (len : Nat) : List Byte :=
  MD5.digest (data.take len)

/-- The argument `(CC_LONG)length` of both digest helpers: `CC_LONG` is `uint32_t`. -/
def CC_LONG_of_size_t (length : Nat) : Nat :=
  length % SIZE_MOD % U32_MOD

/-- `void crypto_sha256(const uint8_t *data, size_t length, uint8_t *digest)`: the bytes
stored to `digest`. -/
def crypto_sha256 (data : List Byte) (length : Nat) : List Byte :=
  CC_SHA256 data (CC_LONG_of_size_t length)

/-- `void crypto_md5(const uint8_t *data, size_t length, uint8_t *digest)`: the bytes
stored to `digest`. -/
def crypto_md5 (data : List Byte) (length : Nat) : List Byte :=
  CC_MD5 data (CC_LONG_of_size_t length)

/-! ## UserInfo.c -/

/-- The fields of `struct passwd` that the helpers read; a NULL field is `none`. -/
structure passwd where
  pw_name : Option (List Char)
  pw_dir : Option (List Char)
  pw_gecos : Option (List Char)
  pw_shell : Option (List Char)

/-- The characters of the C string held in `s`: everything before the first NUL. -/
def cstr (s : List Char) : List Char :=
  s.takeWhile fun ch => ch != NUL

/-- The C library routine `strlen`. -/
def strlen (s : List Char) : Nat :=
  (cstr s).length

/-- The C library routine `strchr`: the offset of the first occurrence of `c` in the
string (whose terminator counts as part of it), `none` for a NULL result. -/
def strchr (s : List Char) (c : Char) : Option Nat :=
  if c = NUL then some (strlen s)
  else if (cstr s).indexOf c < strlen s then some ((cstr s).indexOf c) else none

/-- The C library routine `strncpy(dst, src, n)`: exactly `n` cells of `dst` are stored
to, cell `j` receiving `src[j]` while `j` is inside the string and NUL afterwards. -/
def strncpy (dst : CharBuf) (src : List Char) (n : Nat) : CharBuf :=
  { mem := fun j => if j < n then (cstr src).getD j NUL else dst.mem j
    written := fun j => decide (j < n) || dst.written j
    count := dst.count + n }

/-- `int userinfo_username(char *buffer, size_t buffer_size)`; `pw` is the result of
`get_current_passwd()`, that is of `getpwuid(getuid())`. -/
def userinfo_username (pw : Option passwd) (buffer : CharBuf) (buffer_size : Nat) :
    Int × CharBuf :=
  match pw with
  | none => (-1, buffer)
  | some p =>
    match p.pw_name with
    | none => (-1, buffer)
    | some pw_name =>
      let b1 := strncpy buffer pw_name (sub64 buffer_size 1)
      (0, b1.store (sub64 buffer_size 1) NUL)

/-- `int userinfo_home_directory(char *buffer, size_t buffer_size)`. -/
def userinfo_home_directory (pw : Option passwd) (buffer : CharBuf) (buffer_size : Nat) :
    Int × CharBuf :=
  match pw with
  | none => (-1, buffer)
  | some p =>
    match p.pw_dir with
    | none => (-1, buffer)
    | some pw_dir =>
      let b1 := strncpy buffer pw_dir (sub64 buffer_size 1)
      (0, b1.store (sub64 buffer_size 1) NUL)

/-- `int userinfo_full_name(char *buffer, size_t buffer_size)`. -/
def userinfo_full_name (pw : Option passwd) (buffer : CharBuf) (buffer_size : Nat) :
    Int × CharBuf :=
  match pw with
  | none => (-1, buffer)
  | some p =>
    match p.pw_gecos with
    | none => (-1, buffer)
    | some pw_gecos =>
      -- GECOS field may have comma-separated values, take first part
      let comma := strchr pw_gecos ','
      let len := match comma with
        | some off => off
        | none => strlen pw_gecos
      let len := if len >= buffer_size then sub64 buffer_size 1 else len
      let b1 := strncpy buffer pw_gecos len
      (0, b1.store len NUL)

/-- `int userinfo_shell(char *buffer, size_t buffer_size)`. -/
def userinfo_shell (pw : Option passwd) (buffer : CharBuf) (buffer_size : Nat) :
    Int × CharBuf :=
  match pw with
  | none => (-1, buffer)
  | some p =>
    match p.pw_shell with
    | none => (-1, buffer)
    | some pw_shell =>
      let b1 := strncpy buffer pw_shell (sub64 buffer_size 1)
      (0, b1.store (sub64 buffer_size 1) NUL)

/-- The four string accessors of the identity adapter. -/
inductive Accessor where
  | username
  | home_directory
  | full_name
  | shell
  deriving DecidableEq, Repr

/-- The C function behind an accessor. -/
def Accessor.run : Accessor → Option passwd → CharBuf → Nat → Int × CharBuf
  | .username => userinfo_username
  | .home_directory => userinfo_home_directory
  | .full_name => userinfo_full_name
  | .shell => userinfo_shell

/-- The field of an account record that the accessor reads. -/
def Accessor.field : Accessor → passwd → Option (List Char)
  | .username, p => p.pw_name
  | .home_directory, p => p.pw_dir
  | .full_name, p => p.pw_gecos
  | .shell, p => p.pw_shell

/-- The text an accessor is supposed to deliver for a field value: the first comma
segment for `full_name`, the whole string otherwise. -/
def Accessor.text : Accessor → List Char → List Char
  | .full_name, s => (cstr s).takeWhile fun ch => ch != ','
  | _, s => cstr s

/-- An example account record: the superuser of a Darwin host. -/
def rootRecord : passwd :=
  { pw_name := some "root".toList
    pw_dir := some "/var/root".toList
    pw_gecos := some "System Administrator".toList
    pw_shell := some "/bin/sh".toList }

/-- An example account record whose comment field has three comma separated parts. -/
def janeRecord : passwd :=
  { pw_name := some "jane".toList
    pw_dir := some "/Users/jane".toList
    pw_gecos := some "Jane Q. Doe,Room 101,555-1234".toList
    pw_shell := some "/bin/zsh".toList }

/-! ## TimingHelpers.c -/

/-- `mach_timebase_info_data_t`: two `uint32_t` fields. -/
structure mach_timebase_info_data_t where
  numer : Nat
  denom : Nat
  deriving DecidableEq, Repr

/-- The Mach kernel services the timing helpers call. -/
structure Mach where
  /-- The value returned by the `k`-th call of `mach_absolute_time()`. -/
  mach_absolute_time : Nat → Nat
  /-- The ratio `mach_timebase_info` stores through its argument. -/
  mach_timebase_info : mach_timebase_info_data_t

/-- State of the timing module: the file scope variable `timebase_info` (initially
zero in both fields) and the number of clock reads made so far. -/
structure TimingState where
  timebase_info : mach_timebase_info_data_t
  reads : Nat
  deriving DecidableEq, Repr

/-- The state at process start. -/
def TimingState.start : TimingState :=
  { timebase_info := { numer := 0, denom := 0 }, reads := 0 }

/-- `static void ensure_timebase_info(void)`. -/
def ensure_timebase_info (k : Mach) (s : TimingState) : TimingState :=
  if s.timebase_info.denom = 0 then
    { s with timebase_info :=
        { numer := k.mach_timebase_info.numer % U32_MOD
          denom := k.mach_timebase_info.denom % U32_MOD } }
  else s

/-- `uint64_t timing_now(void)`. -/
def timing_now (k : Mach) (s : TimingState) : Nat × TimingState :=
  (k.mach_absolute_time s.reads % SIZE_MOD, { s with reads := s.reads + 1 })

/-- `uint64_t timing_to_nanoseconds(uint64_t elapsed)`; the result is `none` when the
division is by zero. -/
def timing_to_nanoseconds (k : Mach) (s : TimingState) (elapsed : Nat) :
    Option Nat × TimingState :=
  let s1 := ensure_timebase_info k s
  if s1.timebase_info.denom = 0 then (none, s1)
  else (some (elapsed * s1.timebase_info.numer % SIZE_MOD / s1.timebase_info.denom), s1)

/-- `double timing_to_milliseconds(uint64_t elapsed)`. -/
def timing_to_milliseconds (k : Mach) (s : TimingState) (elapsed : Nat) :
    Option Float × TimingState :=
  match timing_to_nanoseconds k s elapsed with
  | (some ns, s1) => (some (Float.ofNat ns / 1000000.0), s1)
  | (none, s1) => (none, s1)

/-- `uint64_t timing_elapsed_ns(uint64_t start, uint64_t end)`. -/
def timing_elapsed_ns (k : Mach) (s : TimingState) (start end_ : Nat) :
    Option Nat × TimingState :=
  timing_to_nanoseconds k s (sub64 end_ start)

/-- The `for` loop of `timing_measure_overhead`, started at `i`; `fuel` bounds the
number of iterations. -/
def timing_measure_overhead_loop (k : Mach) (iterations : Int) :
    Nat → Int → TimingState → TimingState
  | 0, _, s => s
  | fuel + 1, i, s =>
    if i < iterations then
      timing_measure_overhead_loop k iterations fuel (i + 1) (timing_now k s).2
    else s

/-- `uint64_t timing_measure_overhead(int iterations)`; the result is `none` when a
division is by zero. -/
def timing_measure_overhead (k : Mach) (s : TimingState) (iterations : Int) :
    Option Nat × TimingState :=
  let (start, s1) := timing_now k s
  let s2 := timing_measure_overhead_loop k iterations iterations.toNat 0 s1
  let (end_, s3) := timing_now k s2
  match timing_to_nanoseconds k s3 (sub64 end_ start) with
  | (none, s4) => (none, s4)
  | (some ns, s4) =>
    let divisor := (iterations % (SIZE_MOD : Int)).toNat
    if divisor = 0 then (none, s4) else (some (ns / divisor), s4)

/-- A call into the timing module. -/
inductive TimingCall where
  | now
  | to_nanoseconds (elapsed : Nat)
  | to_milliseconds (elapsed : Nat)
  | elapsed_ns (start end_ : Nat)
  | measure_overhead (iterations : Int)

/-- The effect of one call on the state of the timing module. -/
def TimingCall.step (k : Mach) (s : TimingState) : TimingCall → TimingState
  | .now => (timing_now k s).2
  | .to_nanoseconds elapsed => (timing_to_nanoseconds k s elapsed).2
  | .to_milliseconds elapsed => (timing_to_milliseconds k s elapsed).2
  | .elapsed_ns start end_ => (timing_elapsed_ns k s start end_).2
  | .measure_overhead iterations => (timing_measure_overhead k s iterations).2

/-- The state after a sequence of calls. -/
def TimingCall.run (k : Mach) (s : TimingState) (calls : List TimingCall) : TimingState :=
  calls.foldl (TimingCall.step k) s

/-- An example kernel: the clock advances 24 ticks per read and the timebase ratio is
125/3 (a 24 MHz counter). -/
def exampleMach : Mach :=
  { mach_absolute_time := fun k => 1000 + 24 * k
    mach_timebase_info := { numer := 125, denom := 3 } }

/-- A calibrated state with the ratio 125/3. -/
def calibratedState : TimingState :=
  { timebase_info := { numer := 125, denom := 3 }, reads := 0 }

/-! ## CompressionHelpers.c -/

/-- The constant `Z_OK` of `zlib.h`. -/
def Z_OK : Int := 0

/-- The constant `Z_DEFAULT_COMPRESSION` of `zlib.h`. -/
def Z_DEFAULT_COMPRESSION : Int := -1

/-- The result of a zlib utility call: its return code, the value left in `*destLen`,
and the bytes stored to `dest`. -/
structure ZResult where
  code : Int
  destLen : Nat
  dest : List Byte

/-- The zlib routines the compression helpers call. -/
structure Zlib where
  /-- The call `compress2(dest, &destLen, source, sourceLen, level)`, as a function of
  the source bytes, `sourceLen`, the incoming `destLen` and `level`. -/
  compress2 : List Byte → Nat → Nat → Int → ZResult
  /-- The call `uncompress(dest, &destLen, source, sourceLen)`, as a function of the
  source bytes, `sourceLen` and the incoming `destLen`. -/
  uncompress : List Byte → Nat → Nat → ZResult
  /-- The call `compressBound(sourceLen)`. -/
  compressBound : Nat → Nat

/-- `size_t compress_deflate(input, input_length, output, output_capacity)`: the returned
length and the bytes stored to `output`. -/
def compress_deflate (z : Zlib) (input : List Byte) (input_length output_capacity : Nat) :
    Nat × List Byte :=
  let dest_len := output_capacity % SIZE_MOD
  let r := z.compress2 input (input_length % SIZE_MOD) dest_len Z_DEFAULT_COMPRESSION
  if r.code = Z_OK then (r.destLen % SIZE_MOD, r.dest) else (0, r.dest)

/-- `size_t compress_inflate(input, input_length, output, output_capacity)`: the returned
length and the bytes stored to `output`. -/
def compress_inflate (z : Zlib) (input : List Byte) (input_length output_capacity : Nat) :
    Nat × List Byte :=
  let dest_len := output_capacity % SIZE_MOD
  let r := z.uncompress input (input_length % SIZE_MOD) dest_len
  if r.code = Z_OK then (r.destLen % SIZE_MOD, r.dest) else (0, r.dest)

/-- `size_t compress_bound(size_t input_length)`. -/
def compress_bound (z : Zlib) (input_length : Nat) : Nat :=
  z.compressBound (input_length % SIZE_MOD) % SIZE_MOD

/-! # Theorems -/

/-! ## Buffers -/

set_option maxRecDepth 100000 in
theorem nibble_hi (b : Byte) : (b.val >>> 4) &&& 0x0F = b.val / 16 := by
  revert b; decide

set_option maxRecDepth 100000 in
theorem nibble_lo (b : Byte) : b.val &&& 0x0F = b.val % 16 := by
  revert b; decide

theorem hex_chars_getD (k : Nat) (hk : k < 16) :
    hex_chars.getD k NUL = lowerHexAlphabet.getD k NUL := by
  interval_cases k <;> rfl

theorem lowerHexAlphabet_mem (k : Nat) (hk : k < 16) :
    lowerHexAlphabet.getD k NUL ∈ lowerHexAlphabet := by
  interval_cases k <;> decide

theorem hexValue_getD (k : Nat) (hk : k < 16) :
    hexValue (lowerHexAlphabet.getD k NUL) = k := by
  interval_cases k <;> decide

theorem hexTextAt_mem (d : List Byte) (j : Nat) : hexTextAt d j ∈ lowerHexAlphabet := by
  unfold hexTextAt
  split
  · exact lowerHexAlphabet_mem _ (by omega)
  · exact lowerHexAlphabet_mem _ (by omega)

/-- The loop of `crypto_digest_to_hex` run from index `i` with exactly the fuel that is
left to the end of the digest: it stores the hex text at the offsets `2 * i .. 2 * n - 1`
and nowhere else. -/
theorem crypto_digest_to_hex_loop_spec (d : List Byte) (n : Nat) (hn : 2 * n + 1 ≤ SIZE_MOD) :
    ∀ (fuel i : Nat) (out : CharBuf), i + fuel = n →
      (crypto_digest_to_hex_loop d n fuel i out).count = out.count + 2 * fuel ∧
      (∀ j, (crypto_digest_to_hex_loop d n fuel i out).written j
          = (decide (2 * i ≤ j ∧ j < 2 * n) || out.written j)) ∧
      (∀ j, (crypto_digest_to_hex_loop d n fuel i out).mem j
          = if 2 * i ≤ j ∧ j < 2 * n then hexTextAt d j else out.mem j) := by
  intro fuel
  induction fuel with
  | zero =>
    intro i out h
    refine ⟨by simp [crypto_digest_to_hex_loop], ?_, ?_⟩
    · intro j
      have : ¬ (2 * i ≤ j ∧ j < 2 * n) := by omega
      simp [crypto_digest_to_hex_loop, this]
    · intro j
      have : ¬ (2 * i ≤ j ∧ j < 2 * n) := by omega
      simp [crypto_digest_to_hex_loop, this]
  | succ fuel ih =>
    intro i out h
    have hi : i < n := by omega
    have e0 : i * 2 % SIZE_MOD = 2 * i := by
      rw [Nat.mod_eq_of_lt (by omega)]; omega
    have e1 : (2 * i + 1) % SIZE_MOD = 2 * i + 1 := Nat.mod_eq_of_lt (by omega)
    have e2 : (i + 1) % SIZE_MOD = i + 1 := Nat.mod_eq_of_lt (by omega)
    have hstep : crypto_digest_to_hex_loop d n (fuel + 1) i out
        = crypto_digest_to_hex_loop d n fuel (i + 1)
            ((out.store (2 * i) (hex_chars.getD (((d.getD i 0).val >>> 4) &&& 0x0F) NUL)).store
              (2 * i + 1) (hex_chars.getD ((d.getD i 0).val &&& 0x0F) NUL)) := by
      simp only [crypto_digest_to_hex_loop, hi, if_true, e0, e1, e2]
    obtain ⟨hc, hw, hm⟩ := ih (i + 1)
      ((out.store (2 * i) (hex_chars.getD (((d.getD i 0).val >>> 4) &&& 0x0F) NUL)).store
        (2 * i + 1) (hex_chars.getD ((d.getD i 0).val &&& 0x0F) NUL)) (by omega)
    rw [hstep]
    refine ⟨?_, ?_, ?_⟩
    · rw [hc]; simp only [CharBuf.store]; omega
    · intro j
      rw [hw]
      simp only [CharBuf.store]
      by_cases h1 : j = 2 * i
      · subst h1
        have : ¬ (2 * (i + 1) ≤ 2 * i ∧ 2 * i < 2 * n) := by omega
        have h2 : (2 * i ≤ 2 * i ∧ 2 * i < 2 * n) := by omega
        simp [this, h2]
      · by_cases h2 : j = 2 * i + 1
        · subst h2
          have h3 : (2 * i ≤ 2 * i + 1 ∧ 2 * i + 1 < 2 * n) := by omega
          simp [h3]
        · have : (2 * (i + 1) ≤ j ∧ j < 2 * n) ↔ (2 * i ≤ j ∧ j < 2 * n) := by omega
          simp [h1, h2, this]
    · intro j
      rw [hm]
      simp only [CharBuf.store]
      by_cases h1 : j = 2 * i
      · subst h1
        have h0 : ¬ (2 * (i + 1) ≤ 2 * i ∧ 2 * i < 2 * n) := by omega
        have h2 : (2 * i ≤ 2 * i ∧ 2 * i < 2 * n) := by omega
        have h3 : ¬ (2 * i = 2 * i + 1) := by omega
        rw [if_neg h0, if_neg h3, if_pos rfl, if_pos h2, nibble_hi,
          hex_chars_getD _ (by omega)]
        simp [hexTextAt]
      · by_cases h2 : j = 2 * i + 1
        · subst h2
          have h0 : ¬ (2 * (i + 1) ≤ 2 * i + 1 ∧ 2 * i + 1 < 2 * n) := by omega
          have h3 : (2 * i ≤ 2 * i + 1 ∧ 2 * i + 1 < 2 * n) := by omega
          rw [if_neg h0, if_pos rfl, if_pos h3, nibble_lo, hex_chars_getD _ (by omega)]
          have h4 : (2 * i + 1) % 2 = 1 := by omega
          have h5 : (2 * i + 1) / 2 = i := by omega
          simp [hexTextAt, h4, h5]
        · have : (2 * (i + 1) ≤ j ∧ j < 2 * n) ↔ (2 * i ≤ j ∧ j < 2 * n) := by omega
          by_cases h3 : 2 * i ≤ j ∧ j < 2 * n
          · rw [if_pos (this.mpr h3), if_pos h3]
          · rw [if_neg (fun h => h3 (this.mp h)), if_neg h3, if_neg h2, if_neg h1]

/-- The complete effect of `crypto_digest_to_hex` on a fresh buffer. -/
theorem crypto_digest_to_hex_spec (d : List Byte) (init : Nat → Char)
    (hn : 2 * d.length + 1 ≤ SIZE_MOD) :
    (crypto_digest_to_hex d d.length (CharBuf.fresh init)).count = 2 * d.length + 1 ∧
    (∀ j, (crypto_digest_to_hex d d.length (CharBuf.fresh init)).written j
        = decide (j ≤ 2 * d.length)) ∧
    (∀ j, (crypto_digest_to_hex d d.length (CharBuf.fresh init)).mem j
        = if j < 2 * d.length then hexTextAt d j
          else if j = 2 * d.length then NUL else init j) := by
  obtain ⟨hc, hw, hm⟩ :=
    crypto_digest_to_hex_loop_spec d d.length hn d.length 0 (CharBuf.fresh init) (by omega)
  have e : d.length * 2 % SIZE_MOD = 2 * d.length := by
    rw [Nat.mod_eq_of_lt (by omega)]; omega
  simp only [CharBuf.fresh] at hc hw hm
  unfold crypto_digest_to_hex
  rw [e]
  simp only [CharBuf.fresh]
  refine ⟨?_, ?_, ?_⟩
  · simp only [CharBuf.store, hc]; omega
  · intro j
    simp only [CharBuf.store, hw]
    by_cases h1 : j = 2 * d.length
    · simp [h1]
    · by_cases h2 : j < 2 * d.length
      · have : j ≤ 2 * d.length := by omega
        simp [h1, h2, this]
      · have : ¬ j ≤ 2 * d.length := by omega
        simp [h1, h2, this]
  · intro j
    simp only [CharBuf.store, hm]
    by_cases h1 : j = 2 * d.length
    · simp [h1]
    · by_cases h2 : j < 2 * d.length
      · simp [h1, h2]
      · simp [h1, h2]

/-- In range offsets of the hex text: the two digits of byte `i` and their value. -/
theorem crypto_digest_to_hex_pair (d : List Byte) (init : Nat → Char)
    (hn : 2 * d.length + 1 ≤ SIZE_MOD) (i : Nat) (hi : i < d.length) :
    (crypto_digest_to_hex d d.length (CharBuf.fresh init)).mem (2 * i)
      = lowerHexAlphabet.getD (d[i].val / 16) NUL ∧
    (crypto_digest_to_hex d d.length (CharBuf.fresh init)).mem (2 * i + 1)
      = lowerHexAlphabet.getD (d[i].val % 16) NUL := by
  obtain ⟨_, _, hm⟩ := crypto_digest_to_hex_spec d init hn
  have h4 : (2 * i + 1) % 2 = 1 := by omega
  have h5 : (2 * i + 1) / 2 = i := by omega
  have hg : d.getD i 0 = d[i] := by simp [List.getD_eq_getElem?_getD, hi]
  have h6 : (2 * i) % 2 = 0 := by omega
  have h7 : (2 * i) / 2 = i := by omega
  constructor
  · rw [hm, if_pos (by omega), hexTextAt, if_pos h6, h7, hg]
  · rw [hm, if_pos (by omega), hexTextAt, if_neg (by omega), h5, hg]

/-- C1: for every digest `d` of length `n` (also `n = 0`) whose hex text of `2 * n + 1`
bytes is a representable object size, `crypto_digest_to_hex` performs exactly
`2 * n + 1` byte stores, to exactly the offsets `0 .. 2 * n`; afterwards every offset
below `2 * n` holds a character of `0-9a-f`, offset `2 * n` holds the NUL terminator,
and no offset past `2 * n` has been stored to or changed. -/
theorem crypto_digest_to_hex_output (d : List Byte) (init : Nat → Char)
    (hn : 2 * d.length + 1 ≤ SIZE_MOD) :
    (crypto_digest_to_hex d d.length (CharBuf.fresh init)).count = 2 * d.length + 1 ∧
    (∀ j, (crypto_digest_to_hex d d.length (CharBuf.fresh init)).written j = true
        ↔ j ≤ 2 * d.length) ∧
    (∀ j, j < 2 * d.length →
        (crypto_digest_to_hex d d.length (CharBuf.fresh init)).mem j ∈ lowerHexAlphabet) ∧
    (crypto_digest_to_hex d d.length (CharBuf.fresh init)).mem (2 * d.length) = NUL ∧
    (∀ j, 2 * d.length < j →
        (crypto_digest_to_hex d d.length (CharBuf.fresh init)).written j = false ∧
        (crypto_digest_to_hex d d.length (CharBuf.fresh init)).mem j = init j) := by
  obtain ⟨hc, hw, hm⟩ := crypto_digest_to_hex_spec d init hn
  refine ⟨hc, ?_, ?_, ?_, ?_⟩
  · intro j; rw [hw]; simp
  · intro j hj; rw [hm, if_pos hj]; exact hexTextAt_mem d j
  · rw [hm]; simp
  · intro j hj
    constructor
    · rw [hw]; simp; omega
    · rw [hm, if_neg (by omega), if_neg (by omega)]

/-- Witness of `crypto_digest_to_hex_output`: the digest `e3 b0` takes five stores. -/
theorem crypto_digest_to_hex_output_witness :
    (crypto_digest_to_hex [0xe3, 0xb0] 2 (CharBuf.fresh fun _ => 'x')).count = 5 ∧
    (crypto_digest_to_hex [0xe3, 0xb0] 2 (CharBuf.fresh fun _ => 'x')).mem 4 = NUL :=
  ⟨(crypto_digest_to_hex_output [0xe3, 0xb0] (fun _ => 'x') (by decide)).1,
   (crypto_digest_to_hex_output [0xe3, 0xb0] (fun _ => 'x') (by decide)).2.2.2.1⟩

/-- C10: the hex text is losslessly decodable. For every digest `d` (whose hex text is a
representable object size) and every `i < n`, output characters `2 * i` and `2 * i + 1`
are the lowercase hex digits of the high nibble `d[i] >> 4` and of the low nibble
`d[i] & 0x0F`, in that order; reading the pair as a base 16 number gives back `d[i]`;
and a digest of the same length with the same hex text is the same digest. -/
theorem crypto_digest_to_hex_decodable (d : List Byte) (init : Nat → Char)
    (hn : 2 * d.length + 1 ≤ SIZE_MOD) :
    (∀ (i : Nat) (hi : i < d.length),
      (crypto_digest_to_hex d d.length (CharBuf.fresh init)).mem (2 * i)
        = lowerHexAlphabet.getD (d[i].val >>> 4) NUL ∧
      (crypto_digest_to_hex d d.length (CharBuf.fresh init)).mem (2 * i + 1)
        = lowerHexAlphabet.getD (d[i].val &&& 0x0F) NUL ∧
      16 * hexValue ((crypto_digest_to_hex d d.length (CharBuf.fresh init)).mem (2 * i))
        + hexValue ((crypto_digest_to_hex d d.length (CharBuf.fresh init)).mem (2 * i + 1))
        = d[i].val) ∧
    (∀ (d2 : List Byte) (init2 : Nat → Char), d2.length = d.length →
      (∀ j, j < 2 * d.length →
        (crypto_digest_to_hex d2 d2.length (CharBuf.fresh init2)).mem j
          = (crypto_digest_to_hex d d.length (CharBuf.fresh init)).mem j) →
      d2 = d) := by
  have key : ∀ (e : List Byte) (ini : Nat → Char), 2 * e.length + 1 ≤ SIZE_MOD →
      ∀ (i : Nat) (hi : i < e.length),
      16 * hexValue ((crypto_digest_to_hex e e.length (CharBuf.fresh ini)).mem (2 * i))
        + hexValue ((crypto_digest_to_hex e e.length (CharBuf.fresh ini)).mem (2 * i + 1))
        = e[i].val := by
    intro e ini he i hi
    obtain ⟨h1, h2⟩ := crypto_digest_to_hex_pair e ini he i hi
    have hb : e[i].val < 256 := e[i].isLt
    rw [h1, h2, hexValue_getD _ (by omega), hexValue_getD _ (by omega)]
    omega
  constructor
  · intro i hi
    obtain ⟨h1, h2⟩ := crypto_digest_to_hex_pair d init hn i hi
    have hb : d[i].val < 256 := d[i].isLt
    have s4 : d[i].val >>> 4 = d[i].val / 16 := by
      rw [Nat.shiftRight_eq_div_pow]
    refine ⟨?_, ?_, key d init hn i hi⟩
    · rw [h1, s4]
    · rw [h2, nibble_lo]
  · intro d2 init2 hlen heq
    apply List.ext_getElem hlen
    intro i hi2 hi
    apply Fin.ext
    rw [← key d2 init2 (by omega) i hi2, ← key d init hn i hi,
      heq (2 * i) (by omega), heq (2 * i + 1) (by omega)]

/-- Witness of `crypto_digest_to_hex_decodable`: the characters at offsets 2 and 3 of the
hex text of `e3 b0` decode to `0xb0`. -/
theorem crypto_digest_to_hex_decodable_witness :
    16 * hexValue ((crypto_digest_to_hex [0xe3, 0xb0] 2 (CharBuf.fresh fun _ => 'x')).mem 2)
      + hexValue ((crypto_digest_to_hex [0xe3, 0xb0] 2 (CharBuf.fresh fun _ => 'x')).mem 3)
      = 0xb0 :=
  ((crypto_digest_to_hex_decodable [0xe3, 0xb0] (fun _ => 'x') (by decide)).1 1
    (by decide)).2.2

/-! ## UserInfo.c -/

theorem takeWhile_ne_length (l : List Char) (c : Char) :
    (l.takeWhile fun ch => ch != c).length = l.indexOf c := by
  induction l with
  | nil => rfl
  | cons a l ih =>
    by_cases h : a = c
    · subst h
      simp [List.indexOf_cons_self]
    · rw [List.indexOf_cons_ne _ h, List.takeWhile_cons_of_pos (by simpa using h)]
      simp [ih]

theorem takeWhile_getD (q : Char → Bool) (d : Char) (l : List Char) :
    ∀ j, j < (l.takeWhile q).length → (l.takeWhile q).getD j d = l.getD j d := by
  induction l with
  | nil => intro j hj; simp at hj
  | cons a l ih =>
    intro j hj
    by_cases h : q a = true
    · rw [List.takeWhile_cons_of_pos h] at hj ⊢
      cases j with
      | zero => rfl
      | succ j =>
        have := ih j (by simpa using hj)
        simpa using this
    · rw [List.takeWhile_cons_of_neg h] at hj
      simp at hj

theorem NUL_not_mem_cstr (s : List Char) : NUL ∉ cstr s := by
  intro h
  have := List.mem_takeWhile_imp h
  simp at this

theorem cstr_eq_self (s : List Char) (h : NUL ∉ s) : cstr s = s := by
  unfold cstr
  rw [List.takeWhile_eq_self_iff]
  intro x hx
  have : x ≠ NUL := fun e => h (e ▸ hx)
  simpa using this

/-- The length `userinfo_full_name` computes before clipping is the length of the first
comma segment. -/
theorem full_name_len_eq (g : List Char) :
    (match strchr g ',' with
      | some off => off
      | none => strlen g) = ((cstr g).takeWhile fun ch => ch != ',').length := by
  have hne : ¬ (',' = NUL) := by decide
  have hle : (cstr g).indexOf ',' ≤ (cstr g).length := List.indexOf_le_length
  rw [takeWhile_ne_length]
  unfold strchr strlen
  rw [if_neg hne]
  split_ifs with h
  · rfl
  · show (cstr g).length = _
    omega

/-- The state after `strncpy(buffer, s, n); buffer[n] = 0` on a fresh buffer. -/
theorem strncpy_store_spec (init : Nat → Char) (s : List Char) (n : Nat) :
    ((strncpy (CharBuf.fresh init) s n).store n NUL).count = n + 1 ∧
    (∀ j, ((strncpy (CharBuf.fresh init) s n).store n NUL).written j = decide (j ≤ n)) ∧
    (∀ j, ((strncpy (CharBuf.fresh init) s n).store n NUL).mem j
        = if j < n then (cstr s).getD j NUL else if j = n then NUL else init j) := by
  refine ⟨by simp [CharBuf.store, strncpy, CharBuf.fresh], ?_, ?_⟩
  · intro j
    simp only [CharBuf.store, strncpy, CharBuf.fresh]
    by_cases h1 : j = n
    · simp [h1]
    · by_cases h2 : j < n
      · have : j ≤ n := by omega
        simp [h1, h2, this]
      · have : ¬ j ≤ n := by omega
        simp [h1, h2, this]
  · intro j
    simp only [CharBuf.store, strncpy, CharBuf.fresh]
    by_cases h1 : j = n
    · simp [h1]
    · by_cases h2 : j < n
      · simp [h1, h2]
      · simp [h1, h2]

/-- A buffer whose first cells are the characters of `t`, followed by NUL. -/
theorem contents_eq_of (b : CharBuf) (t : List Char)
    (h1 : ∀ j (hj : j < t.length), b.mem j = t[j]) (h2 : b.mem t.length = NUL) :
    b.contents (t.length + 1) = t ++ [NUL] := by
  apply List.ext_getElem
  · simp [CharBuf.contents]
  · intro i hi1 hi2
    simp only [CharBuf.contents, List.getElem_map, List.getElem_range]
    by_cases h : i < t.length
    · rw [List.getElem_append_left h]; exact h1 i h
    · have : i = t.length := by
        simp [CharBuf.contents] at hi1; omega
      subst this
      simp [h2]

/-- The state after `strncpy(buffer, s, n); buffer[n] = 0` holds the string `s` cut to
`n` characters. -/
theorem strncpy_store_holds (init : Nat → Char) (s : List Char) (n : Nat) :
    ((strncpy (CharBuf.fresh init) s n).store n NUL).contents (((cstr s).take n).length + 1)
      = (cstr s).take n ++ [NUL] := by
  obtain ⟨_, _, hm⟩ := strncpy_store_spec init s n
  apply contents_eq_of
  · intro j hj
    have hj2 : j < n ∧ j < (cstr s).length := by
      simpa [List.length_take] using hj
    rw [hm, if_pos hj2.1, List.getD_eq_getElem _ _ hj2.2]
    simp
  · rw [hm]
    by_cases h : (cstr s).length < n
    · have e : ((cstr s).take n).length = (cstr s).length := by
        simp [List.length_take]; omega
      rw [e, if_pos h]
      simp
    · have e : ((cstr s).take n).length = n := by
        simp [List.length_take]; omega
      rw [e]
      simp

/-- The state after `strncpy(buffer, g, n); buffer[n] = 0` when `n` does not exceed the
first comma segment of `g`: the buffer holds that segment cut to `n` characters. -/
theorem strncpy_store_holds_segment (init : Nat → Char) (g : List Char) (n : Nat)
    (hn : n ≤ ((cstr g).takeWhile fun ch => ch != ',').length) :
    ((strncpy (CharBuf.fresh init) g n).store n NUL).contents (n + 1)
      = ((cstr g).takeWhile fun ch => ch != ',').take n ++ [NUL] := by
  obtain ⟨_, _, hm⟩ := strncpy_store_spec init g n
  have e : (((cstr g).takeWhile fun ch => ch != ',').take n).length = n := by
    simp [List.length_take]; omega
  have := contents_eq_of ((strncpy (CharBuf.fresh init) g n).store n NUL)
    (((cstr g).takeWhile fun ch => ch != ',').take n) ?_ ?_
  · rwa [e] at this
  · intro j hj
    have hj2 : j < n := by rw [e] at hj; exact hj
    rw [hm, if_pos hj2, ← takeWhile_getD (fun ch => ch != ',') NUL (cstr g) j (by omega),
      List.getD_eq_getElem _ _ (by omega)]
    simp
  · rw [e, hm]
    simp

theorem sub64_one (c : Nat) (h1 : 1 ≤ c) (h2 : c < SIZE_MOD) : sub64 c 1 = c - 1 := by
  unfold sub64
  have : (1 : Nat) % SIZE_MOD = 1 := by decide
  rw [this]
  have e : c + SIZE_MOD - 1 = (c - 1) + SIZE_MOD := by omega
  rw [e, Nat.add_mod_right, Nat.mod_eq_of_lt (by omega)]

/-- What `userinfo_full_name` does when the comment field is present. -/
theorem userinfo_full_name_eq (p : passwd) (g : List Char) (buffer : CharBuf) (c : Nat)
    (hp : p.pw_gecos = some g) :
    userinfo_full_name (some p) buffer c
      = (0, (strncpy buffer g
              (if ((cstr g).takeWhile fun ch => ch != ',').length ≥ c then sub64 c 1
               else ((cstr g).takeWhile fun ch => ch != ',').length)).store
              (if ((cstr g).takeWhile fun ch => ch != ',').length ≥ c then sub64 c 1
               else ((cstr g).takeWhile fun ch => ch != ',').length) NUL) := by
  simp only [userinfo_full_name, hp, full_name_len_eq]

/-- What each accessor does when its field is present: it copies `n` characters and
stores the terminator at offset `n`, where `n` is `buffer_size - 1` (for `full_name`: the
length of the first comma segment when that is smaller than `buffer_size`). -/
theorem accessor_run_eq (a : Accessor) (p : passwd) (s : List Char) (buffer : CharBuf)
    (c : Nat) (hp : a.field p = some s) :
    ∃ n, a.run (some p) buffer c = (0, (strncpy buffer s n).store n NUL) ∧
      (n = sub64 c 1 ∨ (a = .full_name ∧ n = (a.text s).length ∧ n < c)) ∧
      (a = .full_name → (a.text s).length ≥ c → n = sub64 c 1) ∧
      (a ≠ .full_name → n = sub64 c 1) := by
  cases a with
  | username =>
    exact ⟨sub64 c 1, by simp only [Accessor.run, userinfo_username, Accessor.field] at hp ⊢; rw [hp],
      Or.inl rfl, fun _ _ => rfl, fun _ => rfl⟩
  | home_directory =>
    exact ⟨sub64 c 1, by simp only [Accessor.run, userinfo_home_directory, Accessor.field] at hp ⊢; rw [hp],
      Or.inl rfl, fun _ _ => rfl, fun _ => rfl⟩
  | shell =>
    exact ⟨sub64 c 1, by simp only [Accessor.run, userinfo_shell, Accessor.field] at hp ⊢; rw [hp],
      Or.inl rfl, fun _ _ => rfl, fun _ => rfl⟩
  | full_name =>
    simp only [Accessor.field] at hp
    refine ⟨_, userinfo_full_name_eq p s buffer c hp, ?_, ?_, ?_⟩
    · by_cases h : ((cstr s).takeWhile fun ch => ch != ',').length ≥ c
      · left; rw [if_pos h]
      · right; rw [if_neg h]; exact ⟨rfl, rfl, by omega⟩
    · intro _ h
      exact if_pos h
    · intro h; exact absurd rfl h

/-- For a capacity of at least one, no accessor stores at or past `buffer_size`. -/
theorem accessor_writes_in_bounds (a : Accessor) (p : passwd) (init : Nat → Char) (c : Nat)
    (h1 : 1 ≤ c) (h2 : c < SIZE_MOD) :
    ∀ j, (a.run (some p) (CharBuf.fresh init) c).2.written j = true → j < c := by
  intro j hj
  cases hf : a.field p with
  | none =>
    have : a.run (some p) (CharBuf.fresh init) c = (-1, CharBuf.fresh init) := by
      cases a <;>
        simp only [Accessor.run, userinfo_username, userinfo_home_directory, userinfo_full_name,
          userinfo_shell, Accessor.field] at hf ⊢ <;> rw [hf]
    rw [this] at hj
    simp [CharBuf.fresh] at hj
  | some s =>
    obtain ⟨n, hrun, hn, _, _⟩ := accessor_run_eq a p s (CharBuf.fresh init) c hf
    rw [hrun] at hj
    have hw := (strncpy_store_spec init s n).2.1 j
    simp only [] at hj
    rw [hw] at hj
    have hjn : j ≤ n := by simpa using hj
    rcases hn with hn | ⟨_, _, hn⟩
    · rw [sub64_one c h1 h2] at hn; omega
    · omega

/-- C2: for every GECOS string `g` and every capacity larger than the length of the first
comma delimited segment of `g`, `userinfo_full_name` returns 0 and stores exactly the
characters of `g` that precede its first comma (all of `g` when it has none) followed by
one NUL terminator, and nothing else. -/
theorem userinfo_full_name_first_segment (p : passwd) (g : List Char) (c : Nat)
    (init : Nat → Char) (hp : p.pw_gecos = some g) (hg : NUL ∉ g)
    (hc : (g.takeWhile fun ch => ch != ',').length < c) :
    (userinfo_full_name (some p) (CharBuf.fresh init) c).1 = 0 ∧
    (userinfo_full_name (some p) (CharBuf.fresh init) c).2.contents
        ((g.takeWhile fun ch => ch != ',').length + 1)
      = (g.takeWhile fun ch => ch != ',') ++ [NUL] ∧
    (userinfo_full_name (some p) (CharBuf.fresh init) c).2.count
      = (g.takeWhile fun ch => ch != ',').length + 1 ∧
    (∀ j, (userinfo_full_name (some p) (CharBuf.fresh init) c).2.written j = true
      ↔ j ≤ (g.takeWhile fun ch => ch != ',').length) ∧
    (∀ j, (g.takeWhile fun ch => ch != ',').length < j →
      (userinfo_full_name (some p) (CharBuf.fresh init) c).2.mem j = init j) := by
  have hcs := cstr_eq_self g hg
  rw [userinfo_full_name_eq p g _ c hp, hcs, if_neg (by omega)]
  obtain ⟨h1, h2, h3⟩ :=
    strncpy_store_spec init g (g.takeWhile fun ch => ch != ',').length
  have h4 := strncpy_store_holds_segment init g (g.takeWhile fun ch => ch != ',').length
    (by rw [hcs])
  rw [hcs, List.take_length] at h4
  refine ⟨rfl, h4, h1, ?_, ?_⟩
  · intro j
    simp only []
    rw [h2]; simp
  · intro j hj
    simp only []
    rw [h3, if_neg (by omega), if_neg (by omega)]

/-- Witness of `userinfo_full_name_first_segment`, the scenario of the specification:
the comment field `Jane Q. Doe,Room 101,555-1234` yields exactly `Jane Q. Doe`. -/
theorem userinfo_full_name_first_segment_witness :
    (userinfo_full_name (some janeRecord) (CharBuf.fresh fun _ => 'x') 12).1 = 0 ∧
    (userinfo_full_name (some janeRecord) (CharBuf.fresh fun _ => 'x') 12).2.contents 12
      = "Jane Q. Doe".toList ++ [NUL] :=
  ⟨(userinfo_full_name_first_segment janeRecord "Jane Q. Doe,Room 101,555-1234".toList 12
      (fun _ => 'x') rfl (by decide) (by decide)).1,
   (userinfo_full_name_first_segment janeRecord "Jane Q. Doe,Room 101,555-1234".toList 12
      (fun _ => 'x') rfl (by decide) (by decide)).2.1⟩

theorem NUL_not_mem_text (a : Accessor) (s : List Char) : NUL ∉ a.text s := by
  cases a with
  | full_name =>
    intro h
    exact NUL_not_mem_cstr s ((List.takeWhile_prefix _).subset h)
  | username => exact NUL_not_mem_cstr s
  | home_directory => exact NUL_not_mem_cstr s
  | shell => exact NUL_not_mem_cstr s

/-- From "the buffer holds the text cut to `c - 1` characters" to the shape of the
truncation contract. -/
theorem truncation_of_holds (b : CharBuf) (text : List Char) (c : Nat) (h1 : 1 ≤ c)
    (hnul : NUL ∉ text)
    (hold : b.contents ((text.take (c - 1)).length + 1) = text.take (c - 1) ++ [NUL]) :
    b.contents ((text.take (c - 1)).length + 1) = text.take (c - 1) ++ [NUL] ∧
    NUL ∉ text.take (c - 1) ∧
    (text.take (c - 1)).length < c ∧
    (c ≤ text.length → b.contents c = text.take (c - 1) ++ [NUL]) := by
  have hl : (text.take (c - 1)).length = min (c - 1) text.length := List.length_take _ _
  refine ⟨hold, fun h => hnul (List.mem_of_mem_take h), by omega, ?_⟩
  intro hc
  have e : (text.take (c - 1)).length + 1 = c := by omega
  rw [e] at hold
  exact hold

/-- The buffer left by `userinfo_full_name` holds the first comma segment cut to
`c - 1` characters. -/
theorem userinfo_full_name_holds (p : passwd) (g : List Char) (c : Nat) (init : Nat → Char)
    (hp : p.pw_gecos = some g) (h1 : 1 ≤ c) (h2 : c < SIZE_MOD) :
    (userinfo_full_name (some p) (CharBuf.fresh init) c).2.contents
        ((((cstr g).takeWhile fun ch => ch != ',').take (c - 1)).length + 1)
      = ((cstr g).takeWhile fun ch => ch != ',').take (c - 1) ++ [NUL] := by
  rw [userinfo_full_name_eq p g _ c hp]
  by_cases h : ((cstr g).takeWhile fun ch => ch != ',').length ≥ c
  · rw [if_pos h, sub64_one c h1 h2]
    have e : (((cstr g).takeWhile fun ch => ch != ',').take (c - 1)).length = c - 1 := by
      rw [List.length_take]; omega
    rw [e]
    exact strncpy_store_holds_segment init g (c - 1) (by omega)
  · rw [if_neg h]
    have e : ((cstr g).takeWhile fun ch => ch != ',').take (c - 1)
        = (cstr g).takeWhile fun ch => ch != ',' := List.take_of_length_le (by omega)
    rw [e]
    have := strncpy_store_holds_segment init g
      ((cstr g).takeWhile fun ch => ch != ',').length (le_refl _)
    rwa [List.take_length] at this

/-- C3, amended to capacities of at least one: for each identity string accessor, every
present source field value `s` and every capacity `1 <= c < 2 ^ 64`, the call returns 0
and the buffer holds a NUL terminated string, namely the text of `s` (for `full_name`
its first comma segment) cut to `c - 1` characters, whose terminator lies within the
first `c` bytes; when the text has `c` or more characters the first `c` bytes are exactly
its first `c - 1` characters followed by the terminator. -/
theorem accessor_truncates (a : Accessor) (p : passwd) (s : List Char) (c : Nat)
    (init : Nat → Char) (hp : a.field p = some s) (h1 : 1 ≤ c) (h2 : c < SIZE_MOD) :
    (a.run (some p) (CharBuf.fresh init) c).1 = 0 ∧
    (a.run (some p) (CharBuf.fresh init) c).2.contents (((a.text s).take (c - 1)).length + 1)
      = (a.text s).take (c - 1) ++ [NUL] ∧
    NUL ∉ (a.text s).take (c - 1) ∧
    ((a.text s).take (c - 1)).length < c ∧
    (c ≤ (a.text s).length →
      (a.run (some p) (CharBuf.fresh init) c).2.contents c = (a.text s).take (c - 1) ++ [NUL]) := by
  have plain : ∀ b : CharBuf,
      b = (strncpy (CharBuf.fresh init) s (sub64 c 1)).store (sub64 c 1) NUL →
      b.contents (((cstr s).take (c - 1)).length + 1) = (cstr s).take (c - 1) ++ [NUL] := by
    intro b hb
    rw [hb, sub64_one c h1 h2]
    exact strncpy_store_holds init s (c - 1)
  cases a with
  | username =>
    simp only [Accessor.field] at hp
    have hr : userinfo_username (some p) (CharBuf.fresh init) c
        = (0, (strncpy (CharBuf.fresh init) s (sub64 c 1)).store (sub64 c 1) NUL) := by
      simp only [userinfo_username, hp]
    simp only [Accessor.run, Accessor.text, hr]
    exact ⟨trivial, truncation_of_holds _ _ c h1 (NUL_not_mem_cstr s) (plain _ rfl)⟩
  | home_directory =>
    simp only [Accessor.field] at hp
    have hr : userinfo_home_directory (some p) (CharBuf.fresh init) c
        = (0, (strncpy (CharBuf.fresh init) s (sub64 c 1)).store (sub64 c 1) NUL) := by
      simp only [userinfo_home_directory, hp]
    simp only [Accessor.run, Accessor.text, hr]
    exact ⟨trivial, truncation_of_holds _ _ c h1 (NUL_not_mem_cstr s) (plain _ rfl)⟩
  | shell =>
    simp only [Accessor.field] at hp
    have hr : userinfo_shell (some p) (CharBuf.fresh init) c
        = (0, (strncpy (CharBuf.fresh init) s (sub64 c 1)).store (sub64 c 1) NUL) := by
      simp only [userinfo_shell, hp]
    simp only [Accessor.run, Accessor.text, hr]
    exact ⟨trivial, truncation_of_holds _ _ c h1 (NUL_not_mem_cstr s) (plain _ rfl)⟩
  | full_name =>
    simp only [Accessor.field] at hp
    simp only [Accessor.run, Accessor.text]
    refine ⟨?_, truncation_of_holds _ _ c h1 (NUL_not_mem_text .full_name s)
      (userinfo_full_name_holds p s c init hp h1 h2)⟩
    rw [userinfo_full_name_eq p s _ c hp]

/-- Witness of `accessor_truncates`: the user name `root` read into three bytes. -/
theorem accessor_truncates_witness :
    (Accessor.username.run (some rootRecord) (CharBuf.fresh fun _ => 'x') 3).1 = 0 ∧
    (Accessor.username.run (some rootRecord) (CharBuf.fresh fun _ => 'x') 3).2.contents 3
      = "ro".toList ++ [NUL] :=
  ⟨(accessor_truncates .username rootRecord "root".toList 3 (fun _ => 'x') rfl
      (by decide) (by decide)).1,
   (accessor_truncates .username rootRecord "root".toList 3 (fun _ => 'x') rfl
      (by decide) (by decide)).2.2.2.2 (by decide)⟩

/-- Capacity zero refutes C3 as stated for every capacity: `userinfo_username` with the
user name `root` and `buffer_size = 0` succeeds (returns 0), yet no terminator lies within
the first zero bytes; the copy is not cut, and the terminator store goes to offset
`2 ^ 64 - 1`. -/
theorem accessor_zero_capacity_not_truncated :
    (userinfo_username (some rootRecord) (CharBuf.fresh fun _ => 'x') 0).1 = 0 ∧
    (¬ ∃ k, k < 0 ∧
      (userinfo_username (some rootRecord) (CharBuf.fresh fun _ => 'x') 0).2.mem k = NUL) ∧
    (userinfo_username (some rootRecord) (CharBuf.fresh fun _ => 'x') 0).2.contents 5
      = "root".toList ++ [NUL] ∧
    (userinfo_username (some rootRecord) (CharBuf.fresh fun _ => 'x') 0).2.written
      (2 ^ 64 - 1) = true := by
  refine ⟨by decide, ?_, by decide, by decide⟩
  rintro ⟨k, hk, _⟩
  omega

/-- C4 at its failing input: with `buffer_size = 0` each of the four accessors returns 0
after `2 ^ 64` byte stores, among them offset 0 and offset `2 ^ 64 - 1`, all of them at or
past the capacity. -/
theorem accessor_zero_capacity_overrun :
    ((userinfo_username (some rootRecord) (CharBuf.fresh fun _ => 'x') 0).1 = 0 ∧
      (userinfo_username (some rootRecord) (CharBuf.fresh fun _ => 'x') 0).2.count = 2 ^ 64 ∧
      (userinfo_username (some rootRecord) (CharBuf.fresh fun _ => 'x') 0).2.written 0 = true ∧
      (userinfo_username (some rootRecord) (CharBuf.fresh fun _ => 'x') 0).2.written
        (2 ^ 64 - 1) = true) ∧
    ((userinfo_home_directory (some rootRecord) (CharBuf.fresh fun _ => 'x') 0).1 = 0 ∧
      (userinfo_home_directory (some rootRecord) (CharBuf.fresh fun _ => 'x') 0).2.count
        = 2 ^ 64 ∧
      (userinfo_home_directory (some rootRecord) (CharBuf.fresh fun _ => 'x') 0).2.written 0
        = true ∧
      (userinfo_home_directory (some rootRecord) (CharBuf.fresh fun _ => 'x') 0).2.written
        (2 ^ 64 - 1) = true) ∧
    ((userinfo_full_name (some rootRecord) (CharBuf.fresh fun _ => 'x') 0).1 = 0 ∧
      (userinfo_full_name (some rootRecord) (CharBuf.fresh fun _ => 'x') 0).2.count = 2 ^ 64 ∧
      (userinfo_full_name (some rootRecord) (CharBuf.fresh fun _ => 'x') 0).2.written 0 = true ∧
      (userinfo_full_name (some rootRecord) (CharBuf.fresh fun _ => 'x') 0).2.written
        (2 ^ 64 - 1) = true) ∧
    ((userinfo_shell (some rootRecord) (CharBuf.fresh fun _ => 'x') 0).1 = 0 ∧
      (userinfo_shell (some rootRecord) (CharBuf.fresh fun _ => 'x') 0).2.count = 2 ^ 64 ∧
      (userinfo_shell (some rootRecord) (CharBuf.fresh fun _ => 'x') 0).2.written 0 = true ∧
      (userinfo_shell (some rootRecord) (CharBuf.fresh fun _ => 'x') 0).2.written
        (2 ^ 64 - 1) = true) := by
  decide

/-! ## TimingHelpers.c -/

theorem ensure_timebase_info_calibrated (k : Mach) (s : TimingState)
    (h : s.timebase_info.denom ≠ 0) : ensure_timebase_info k s = s := by
  unfold ensure_timebase_info
  rw [if_neg h]

theorem timing_to_nanoseconds_state (k : Mach) (s : TimingState) (e : Nat) :
    (timing_to_nanoseconds k s e).2 = ensure_timebase_info k s := by
  unfold timing_to_nanoseconds
  simp only []
  split <;> rfl

/-- The conversion result depends on the calibration pair only. -/
theorem timing_to_nanoseconds_congr (k : Mach) (s t : TimingState) (e : Nat)
    (h : s.timebase_info = t.timebase_info) :
    (timing_to_nanoseconds k s e).1 = (timing_to_nanoseconds k t e).1 := by
  have he : (ensure_timebase_info k s).timebase_info
      = (ensure_timebase_info k t).timebase_info := by
    unfold ensure_timebase_info
    rw [h]
    split <;> simp [h]
  unfold timing_to_nanoseconds
  simp only [he]
  split <;> rfl

theorem timing_to_nanoseconds_calibrated (k : Mach) (s : TimingState) (e : Nat)
    (h : s.timebase_info.denom ≠ 0) :
    timing_to_nanoseconds k s e
      = (some (e * s.timebase_info.numer % SIZE_MOD / s.timebase_info.denom), s) := by
  unfold timing_to_nanoseconds
  simp only [ensure_timebase_info_calibrated k s h, if_neg h]

/-- The loop of `timing_measure_overhead`, run from `i` with the fuel that is left to
`iterations`, reads the clock once per remaining iteration and does nothing else. -/
theorem timing_measure_overhead_loop_spec (k : Mach) (iterations : Int) :
    ∀ (fuel : Nat) (i : Int) (s : TimingState), i + fuel = max iterations i →
      timing_measure_overhead_loop k iterations fuel i s
        = { s with reads := s.reads + fuel } := by
  intro fuel
  induction fuel with
  | zero => intro i s _; rfl
  | succ fuel ih =>
    intro i s h
    have hi : i < iterations := by
      rcases max_cases iterations i with ⟨e, _⟩ | ⟨e, _⟩ <;> rw [e] at h <;> push_cast at h <;> omega
    have hm : max iterations (i + 1) = iterations := max_eq_left (by omega)
    have hm0 : max iterations i = iterations := max_eq_left (by omega)
    rw [timing_measure_overhead_loop, if_pos hi, ih (i + 1) _ (by rw [hm]; rw [hm0] at h; push_cast at h; omega)]
    simp only [timing_now, TimingState.mk.injEq, true_and]
    omega

/-- The state `timing_measure_overhead` hands to the conversion, and its result. -/
theorem timing_measure_overhead_eq (k : Mach) (s : TimingState) (iterations : Int) :
    timing_measure_overhead k s iterations
      = (match (timing_to_nanoseconds k s
            (sub64 (k.mach_absolute_time (s.reads + 1 + iterations.toNat) % SIZE_MOD)
              (k.mach_absolute_time s.reads % SIZE_MOD))).1 with
          | none => none
          | some ns =>
            if (iterations % (SIZE_MOD : Int)).toNat = 0 then none
            else some (ns / (iterations % (SIZE_MOD : Int)).toNat),
         ensure_timebase_info k { s with reads := s.reads + 2 + iterations.toNat }) := by
  have hloop := timing_measure_overhead_loop_spec k iterations iterations.toNat 0
    (timing_now k s).2 (by
      rcases le_total 0 iterations with h | h
      · rw [max_eq_left h, Int.toNat_of_nonneg h]; simp
      · rw [max_eq_right h, Int.toNat_eq_zero.mpr h]; simp)
  unfold timing_measure_overhead
  simp only [hloop]
  have hs : ∀ e, timing_to_nanoseconds k
      { timebase_info := s.timebase_info, reads := s.reads + 1 + iterations.toNat + 1 } e
      = ((timing_to_nanoseconds k s e).1,
         ensure_timebase_info k { s with reads := s.reads + 2 + iterations.toNat }) := by
    intro e
    apply Prod.ext
    · exact timing_to_nanoseconds_congr k _ _ e rfl
    · rw [timing_to_nanoseconds_state]
      have : s.reads + 1 + iterations.toNat + 1 = s.reads + 2 + iterations.toNat := by omega
      simp only [this]
  simp only [timing_now, hs]
  generalize (timing_to_nanoseconds k s _).1 = r
  cases r with
  | none => rfl
  | some ns =>
    simp only []
    split <;> rfl


theorem timing_to_milliseconds_state (k : Mach) (s : TimingState) (e : Nat) :
    (timing_to_milliseconds k s e).2 = (timing_to_nanoseconds k s e).2 := by
  unfold timing_to_milliseconds
  rcases h : timing_to_nanoseconds k s e with ⟨_ | ns, s1⟩ <;> rfl

/-- On a calibrated state a single call leaves the calibration pair alone. -/
theorem step_timebase_info (k : Mach) (s : TimingState) (h : s.timebase_info.denom ≠ 0)
    (call : TimingCall) : (TimingCall.step k s call).timebase_info = s.timebase_info := by
  cases call with
  | now => rfl
  | to_nanoseconds e =>
    simp only [TimingCall.step, timing_to_nanoseconds_state,
      ensure_timebase_info_calibrated k s h]
  | to_milliseconds e =>
    simp only [TimingCall.step, timing_to_milliseconds_state, timing_to_nanoseconds_state,
      ensure_timebase_info_calibrated k s h]
  | elapsed_ns a b =>
    simp only [TimingCall.step, timing_elapsed_ns, timing_to_nanoseconds_state,
      ensure_timebase_info_calibrated k s h]
  | measure_overhead n =>
    simp only [TimingCall.step, timing_measure_overhead_eq]
    rw [ensure_timebase_info_calibrated k { s with reads := s.reads + 2 + n.toNat } h]

theorem run_timebase_info (k : Mach) (calls : List TimingCall) :
    ∀ s : TimingState, s.timebase_info.denom ≠ 0 →
      (TimingCall.run k s calls).timebase_info = s.timebase_info := by
  induction calls with
  | nil => intro s _; rfl
  | cons call calls ih =>
    intro s h
    have hs := step_timebase_info k s h call
    have := ih (TimingCall.step k s call) (by rw [hs]; exact h)
    simp only [TimingCall.run, List.foldl_cons] at this ⊢
    rw [this, hs]

/-- C5, amended: `timing_measure_overhead` does not reject `iterations = 0`; with 0 it
evaluates the division by zero and yields no result. For every `iterations >= 1` (an
`int`) it returns the converted nanoseconds elapsed between its first clock read and the
read after the loop, divided by `iterations`. -/
theorem timing_measure_overhead_result (k : Mach) (s : TimingState) (iterations : Int)
    (h1 : 1 ≤ iterations) (h2 : iterations < 2 ^ 31) :
    (timing_measure_overhead k s iterations).1
      = ((timing_to_nanoseconds k s
          (sub64 (k.mach_absolute_time (s.reads + 1 + iterations.toNat) % SIZE_MOD)
            (k.mach_absolute_time s.reads % SIZE_MOD))).1.map
          fun ns => ns / iterations.toNat) ∧
    (timing_measure_overhead k s 0).1 = none := by
  constructor
  · rw [timing_measure_overhead_eq]
    have hd : (iterations % (SIZE_MOD : Int)).toNat = iterations.toNat := by
      rw [Int.emod_eq_of_lt (by omega) (by
        have : ((SIZE_MOD : Nat) : Int) = 2 ^ 64 := by simp [SIZE_MOD]
        rw [this]; omega)]
    have hz : iterations.toNat ≠ 0 := by omega
    simp only [hd, if_neg hz]
    cases (timing_to_nanoseconds k s _).1 <;> rfl
  · rw [timing_measure_overhead_eq]
    simp only []
    cases (timing_to_nanoseconds k s _).1 with
    | none => rfl
    | some ns => simp

/-- Witness of `timing_measure_overhead_result`: ten iterations on the example kernel,
264 ticks apart, 11000 ns in all. -/
theorem timing_measure_overhead_result_witness :
    (timing_measure_overhead exampleMach calibratedState 10).1 = some 1100 :=
  (timing_measure_overhead_result exampleMach calibratedState 10 (by decide)
    (by decide)).1.trans (by decide)

/-- With `iterations = 0` and a calibrated timebase (so that the conversion itself is
defined), `timing_measure_overhead` is not rejected before the division: its result is
the division by zero. -/
theorem timing_measure_overhead_zero_divides :
    (timing_measure_overhead exampleMach calibratedState 0).1 = none ∧
    (timing_measure_overhead exampleMach calibratedState 0).2.timebase_info.denom = 3 ∧
    (timing_measure_overhead exampleMach calibratedState 0).2.reads = 2 ∧
    (timing_to_nanoseconds exampleMach calibratedState 24).1 = some 1000 := by
  decide

/-- C8, amended to tick counts whose product with the numerator fits 64 bits: once
calibrated with numerator `N` and a non zero denominator `D`, `timing_to_nanoseconds(e)`
is `floor(((e * N) mod 2 ^ 64) / D)` for every tick count `e`; this equals
`floor(e * N / D)` whenever `e * N < 2 ^ 64`, and on that range the conversion is
monotone non decreasing. -/
theorem timing_to_nanoseconds_ratio (k : Mach) (s : TimingState) (e1 e2 : Nat)
    (hD : s.timebase_info.denom ≠ 0) (h12 : e1 ≤ e2)
    (hfit : e2 * s.timebase_info.numer < SIZE_MOD) :
    (∀ e : Nat, (timing_to_nanoseconds k s e).1
      = some (e * s.timebase_info.numer % SIZE_MOD / s.timebase_info.denom)) ∧
    (timing_to_nanoseconds k s e2).1
      = some (e2 * s.timebase_info.numer / s.timebase_info.denom) ∧
    (timing_to_nanoseconds k s e1).1
      = some (e1 * s.timebase_info.numer / s.timebase_info.denom) ∧
    e1 * s.timebase_info.numer / s.timebase_info.denom
      ≤ e2 * s.timebase_info.numer / s.timebase_info.denom := by
  have hle : e1 * s.timebase_info.numer ≤ e2 * s.timebase_info.numer :=
    Nat.mul_le_mul_right _ h12
  refine ⟨fun e => by rw [timing_to_nanoseconds_calibrated k s e hD], ?_, ?_,
    Nat.div_le_div_right hle⟩
  · rw [timing_to_nanoseconds_calibrated k s e2 hD, Nat.mod_eq_of_lt hfit]
  · rw [timing_to_nanoseconds_calibrated k s e1 hD,
      Nat.mod_eq_of_lt (lt_of_le_of_lt hle hfit)]

/-- Witness of `timing_to_nanoseconds_ratio`: 24 and 48 ticks at the ratio 125/3. -/
theorem timing_to_nanoseconds_ratio_witness :
    (timing_to_nanoseconds exampleMach calibratedState 48).1 = some (48 * 125 / 3) :=
  (timing_to_nanoseconds_ratio exampleMach calibratedState 24 48 (by decide) (by decide)
    (by decide)).2.1

/-- The 64 bit product wraps: at the ratio 125/3 the tick count `147573952589676413`
converts to 3 ns, not to `floor(e * 125 / 3)`, and to less than its predecessor does. -/
theorem timing_to_nanoseconds_wraps :
    (timing_to_nanoseconds exampleMach calibratedState 147573952589676413).1 = some 3 ∧
    147573952589676413 * 125 / 3 = 6148914691236517208 ∧
    (timing_to_nanoseconds exampleMach calibratedState 147573952589676412).1
      = some 6148914691236517166 := by
  decide

/-- C9: in the timing state machine, once the denominator is non zero
`ensure_timebase_info` is a no-op, every single call and every sequence of calls
(`timing_now`, `timing_to_nanoseconds`, `timing_to_milliseconds`, `timing_elapsed_ns`,
`timing_measure_overhead`) leaves `(numer, denom)` unchanged, and a conversion repeated
after any sequence of calls returns the value it returned before. -/
theorem timing_calibration_stable (k : Mach) (s : TimingState)
    (h : s.timebase_info.denom ≠ 0) :
    ensure_timebase_info k s = s ∧
    (∀ call : TimingCall, (TimingCall.step k s call).timebase_info = s.timebase_info) ∧
    (∀ calls : List TimingCall, (TimingCall.run k s calls).timebase_info = s.timebase_info) ∧
    (∀ (calls : List TimingCall) (e : Nat),
      (timing_to_nanoseconds k (TimingCall.run k (timing_to_nanoseconds k s e).2 calls) e).1
        = (timing_to_nanoseconds k s e).1) := by
  refine ⟨ensure_timebase_info_calibrated k s h, step_timebase_info k s h,
    fun calls => run_timebase_info k calls s h, ?_⟩
  intro calls e
  apply timing_to_nanoseconds_congr
  rw [timing_to_nanoseconds_state, ensure_timebase_info_calibrated k s h]
  exact run_timebase_info k calls s h

/-- Witness of `timing_calibration_stable`: a mixed sequence of calls on the calibrated
example state. -/
theorem timing_calibration_stable_witness :
    (TimingCall.run exampleMach calibratedState
      [.now, .to_nanoseconds 48, .measure_overhead 0, .elapsed_ns 10 34,
        .to_milliseconds 7]).timebase_info = { numer := 125, denom := 3 } :=
  (timing_calibration_stable exampleMach calibratedState (by decide)).2.2.1 _

/-! ## CryptoHelpers.c, the digests -/

theorem sha256_round_length (st : List Nat) (kw : Nat × Nat) :
    (SHA256.round st kw).length = st.length := by
  unfold SHA256.round
  split <;> rfl

theorem sha256_foldl_round_length (l : List (Nat × Nat)) :
    ∀ st : List Nat, (l.foldl SHA256.round st).length = st.length := by
  induction l with
  | nil => intro st; rfl
  | cons x l ih => intro st; rw [List.foldl_cons, ih, sha256_round_length]

theorem sha256_compress_length (st block : List Nat) :
    (SHA256.compress st block).length = st.length := by
  unfold SHA256.compress
  simp [List.length_zipWith, sha256_foldl_round_length]

theorem sha256_blocks_length (n : Nat) :
    ∀ (bs st : List Nat), (SHA256.blocks n bs st).length = st.length := by
  induction n with
  | zero => intro bs st; rfl
  | succ n ih => intro bs st; rw [SHA256.blocks, ih, sha256_compress_length]

theorem sha256_flatten_wordBytes_length (l : List Nat) :
    ((l.map SHA256.wordBytes).flatten).length = 4 * l.length := by
  induction l with
  | nil => rfl
  | cons x l ih =>
    rw [List.map_cons, List.flatten_cons, List.length_append, ih]
    simp [SHA256.wordBytes]; omega

theorem sha256_digest_length (msg : List Byte) : (SHA256.digest msg).length = 32 := by
  unfold SHA256.digest
  rw [sha256_flatten_wordBytes_length, sha256_blocks_length]
  rfl

theorem md5_step_length (m st : List Nat) (i : Nat) : (MD5.step m st i).length = st.length := by
  unfold MD5.step
  split <;> rfl

theorem md5_foldl_step_length (m : List Nat) (l : List Nat) :
    ∀ st : List Nat, (l.foldl (MD5.step m) st).length = st.length := by
  induction l with
  | nil => intro st; rfl
  | cons x l ih => intro st; rw [List.foldl_cons, ih, md5_step_length]

theorem md5_compress_length (st block : List Nat) :
    (MD5.compress st block).length = st.length := by
  unfold MD5.compress
  simp [List.length_zipWith, md5_foldl_step_length]

theorem md5_blocks_length (n : Nat) :
    ∀ (bs st : List Nat), (MD5.blocks n bs st).length = st.length := by
  induction n with
  | zero => intro bs st; rfl
  | succ n ih => intro bs st; rw [MD5.blocks, ih, md5_compress_length]

theorem md5_flatten_wordBytes_length (l : List Nat) :
    ((l.map MD5.wordBytes).flatten).length = 4 * l.length := by
  induction l with
  | nil => rfl
  | cons x l ih =>
    rw [List.map_cons, List.flatten_cons, List.length_append, ih]
    simp [MD5.wordBytes]; omega

theorem md5_digest_length (msg : List Byte) : (MD5.digest msg).length = 16 := by
  unfold MD5.digest
  rw [md5_flatten_wordBytes_length, md5_blocks_length]
  rfl

set_option maxRecDepth 100000 in
/-- The hex text of the SHA-256 digest of the empty input. -/
theorem sha256_empty_hex :
    (crypto_digest_to_hex (crypto_sha256 [] 0) 32 (CharBuf.fresh fun _ => 'x')).contents 65
      = "e3b0c44298fc1c149afbf4c8996fb92427ae41e4649b934ca495991b7852b855".toList ++ [NUL] := by
  decide

/-- C6, amended to lengths below `2 ^ 32`: the length handed to the underlying hash is
`length mod 2 ^ 32` (the argument is cast to the 32 bit `CC_LONG`), which is `length`
itself for `length < 2 ^ 32`; for such inputs (also the empty one) `crypto_sha256` writes
the 32 byte SHA-256 digest of all `length` bytes and `crypto_md5` the 16 byte MD5 digest;
for the empty input the SHA-256 result rendered by `crypto_digest_to_hex` is
`e3b0c44298fc1c149afbf4c8996fb92427ae41e4649b934ca495991b7852b855`. -/
theorem crypto_digest_of_all_bytes (data : List Byte) (length : Nat)
    (hlen : data.length = length) (h32 : length < 2 ^ 32) :
    CC_LONG_of_size_t length = length ∧
    crypto_sha256 data length = SHA256.digest data ∧
    (crypto_sha256 data length).length = 32 ∧
    crypto_md5 data length = MD5.digest data ∧
    (crypto_md5 data length).length = 16 ∧
    (crypto_digest_to_hex (crypto_sha256 [] 0) 32 (CharBuf.fresh fun _ => 'x')).contents 65
      = "e3b0c44298fc1c149afbf4c8996fb92427ae41e4649b934ca495991b7852b855".toList ++ [NUL] := by
  have hc : CC_LONG_of_size_t length = length := by
    unfold CC_LONG_of_size_t SIZE_MOD U32_MOD
    omega
  have ht : data.take length = data := by
    rw [← hlen]; exact List.take_length data
  refine ⟨hc, ?_, ?_, ?_, ?_, sha256_empty_hex⟩
  · simp only [crypto_sha256, CC_SHA256, hc, ht]
  · simp only [crypto_sha256, CC_SHA256, sha256_digest_length]
  · simp only [crypto_md5, CC_MD5, hc, ht]
  · simp only [crypto_md5, CC_MD5, md5_digest_length]

set_option maxRecDepth 100000 in
/-- Witness of `crypto_digest_of_all_bytes`: the three bytes `abc`. -/
theorem crypto_digest_of_all_bytes_witness :
    crypto_md5 [0x61, 0x62, 0x63] 3
      = [0x90, 0x01, 0x50, 0x98, 0x3c, 0xd2, 0x4f, 0xb0,
         0xd6, 0x96, 0x3f, 0x7d, 0x28, 0xe1, 0x7f, 0x72] :=
  (crypto_digest_of_all_bytes [0x61, 0x62, 0x63] 3 rfl (by decide)).2.2.2.1.trans (by decide)

/-- A length of `2 ^ 32` refutes C6 as stated for every `size_t` length: the length handed
to the hash is 0, not `2 ^ 32`, so an input of `2 ^ 32` bytes gets the digests of the
empty input. -/
theorem crypto_digest_length_truncated :
    CC_LONG_of_size_t (2 ^ 32) = 0 ∧
    CC_LONG_of_size_t (2 ^ 32) ≠ 2 ^ 32 ∧
    (List.replicate (2 ^ 32) (1 : Byte)).length = 2 ^ 32 ∧
    crypto_sha256 (List.replicate (2 ^ 32) 1) (2 ^ 32) = crypto_sha256 [] 0 ∧
    crypto_md5 (List.replicate (2 ^ 32) 1) (2 ^ 32) = crypto_md5 [] 0 := by
  have h0 : CC_LONG_of_size_t (2 ^ 32) = 0 := by decide
  have h1 : CC_LONG_of_size_t 0 = 0 := by decide
  refine ⟨h0, by decide, List.length_replicate _ _, ?_, ?_⟩
  · simp only [crypto_sha256, CC_SHA256, h0, h1, List.take_zero]
  · simp only [crypto_md5, CC_MD5, h0, h1, List.take_zero]

end CHelpers
